import Mathlib

/-!
Verification development for the botdojo-chat-sdk MCP App Host Bridge.

The TypeScript source is shallowly embedded: JavaScript values are modelled
by the inductive `JsVal`, JS `Map`s by association lists, and the stateful
React hooks (`useMcpHostBridge` in the bridge module, the provider in
`BotDojoChatProvider`) by explicit state records with pure transition
functions returning the list of postMessage envelopes they emit.
`JSON.parse` wrapped in try/catch is modelled by an abstract
`String → Option JsVal` parameter.
-/

/-- Model of a JavaScript value as it flows through the bridge:
`undef` is `undefined`, `jnull` is `null`, objects and arrays carry their
enumerable own entries in insertion order. -/
inductive JsVal where
  | undef : JsVal
  | jnull : JsVal
  | jstr : String → JsVal
  | jnum : Int → JsVal
  | jbool : Bool → JsVal
  | jobj : List (String × JsVal) → JsVal
  | jarr : List JsVal → JsVal
deriving Repr

open JsVal

/-- First-match association-list lookup, the model of `Map.get` /
JS object property lookup (JS object literals have unique keys, so
first-match agrees with the object semantics). -/
def alook {κ β : Type} [DecidableEq κ] : List (κ × β) → κ → Option β
  | [], _ => none
  | (k, v) :: rest, key => if k = key then some v else alook rest key

/-- Model of `Map.delete k` on an association list. -/
def eraseKey {κ β : Type} [DecidableEq κ] : List (κ × β) → κ → List (κ × β)
  | [], _ => []
  | (k, v) :: rest, key => if k = key then rest else (k, v) :: eraseKey rest key

/-- Model of `Map.set k v`: overwrite the existing entry in place, else append. -/
def setKey {κ β : Type} [DecidableEq κ] : List (κ × β) → κ → β → List (κ × β)
  | [], key, v => [(key, v)]
  | (k, w) :: rest, key, v => if k = key then (key, v) :: rest else (k, w) :: setKey rest key v

/-- Property access `v?.k`: `undefined` on missing keys and on every
non-object receiver (optional chaining absorbs `undefined`/`null`). -/
def getProp (v : JsVal) (k : String) : JsVal :=
  match v with
  | jobj fields => (alook fields k).getD undef
  | _ => undef

/-- JavaScript truthiness of a modelled value. -/
def truthy : JsVal → Bool
  | undef => false
  | jnull => false
  | jstr s => s ≠ ""
  | jnum n => n ≠ 0
  | jbool b => b
  | jobj _ => true
  | jarr _ => true

/-- Whether `typeof v === 'object'` (objects, arrays and `null`). -/
def isObjectType : JsVal → Bool
  | jobj _ => true
  | jarr _ => true
  | jnull => true
  | _ => false

/-- `Object.keys(v).length` for the values the validators inspect. -/
def keyCount : JsVal → Nat
  | jobj fields => fields.length
  | jarr elems => elems.length
  | _ => 0

/-- Whether `v === undefined || v === ''`, the emptiness test used for
tool results. -/
def isUndefOrEmptyStr : JsVal → Bool
  | undef => true
  | jstr s => s = ""
  | _ => false

/-- JS `String.prototype.trim` on the character list of a string. -/
def trimChars (l : List Char) : List Char :=
  ((l.dropWhile Char.isWhitespace).reverse.dropWhile Char.isWhitespace).reverse

/-- Whether the list `l` begins with the list `p`. -/
def startsL {α : Type} [DecidableEq α] : List α → List α → Bool
  | _, [] => true
  | [], _ :: _ => false
  | a :: l, b :: p => if a = b then startsL l p else false

/-- Whether `s` occurs as a contiguous subsequence of `l`
(the model of JS `String.prototype.includes`). -/
def seqIn {α : Type} [DecidableEq α] : List α → List α → Bool
  | [], s => startsL ([] : List α) s
  | a :: t, s => startsL (a :: t) s || seqIn t s

/-- `s.includes(sub)` on modelled strings. -/
def strIncludes (s sub : String) : Bool := seqIn s.data sub.data

/-- Embedding of `parseMaybeJson` from `src/utils/mcpUtils.ts`:
`undefined`, `null` and `''` map to `undefined`; objects are returned
as-is; a non-blank string is fed to `JSON.parse` (the abstract `parse`,
already wrapping the try/catch as `Option`) and returned unchanged when
parsing fails; everything else is returned unchanged. -/
def parseMaybeJson (parse : String → Option JsVal) : JsVal → JsVal
  | undef => undef
  | jnull => undef
  | jobj fields => jobj fields
  | jarr elems => jarr elems
  | jstr s =>
    if s = "" then undef
    else if trimChars s.data ≠ [] then
      match parse s with
      | some w => w
      | none => jstr s
    else jstr s
  | jnum n => jnum n
  | jbool b => jbool b

/-- Embedding of `validateToolParams` from `src/utils/mcpUtils.ts`:
a `result`-kind notification needs `params.result` distinct from
`undefined` and `''`; `input`/`partial` kinds need `params.arguments`
to be a truthy non-`''` object with at least one key. -/
def validateToolParams (params : JsVal) (kind : String) : Bool :=
  if kind = "result" then
    let result := getProp params "result"
    !(isUndefOrEmptyStr result)
  else
    let args := getProp params "arguments"
    truthy args && !(isUndefOrEmptyStr args) && isObjectType args && decide (keyCount args > 0)

/-- Notification kind inferred by `sendToolNotification` in the bridge:
`method.includes('result')`, then `method.includes('partial')`, else input. -/
def notifKind (method : String) : String :=
  if strIncludes method "result" then "result"
  else if strIncludes method "partial" then "partial"
  else "input"

/-- One JSON-RPC notification envelope `{method, params}` (the `jsonrpc`
tag is constant on the wire and omitted from the model). -/
structure Notif where
  method : String
  params : JsVal
deriving Repr

/-- The `IframeState` union of the bridge hook. -/
inductive IframeState where
  | idle : IframeState
  | loading : IframeState
  | initializing : IframeState
  | ready : IframeState
deriving Repr, DecidableEq

/-- State of one `useMcpHostBridge` instance, restricted to the fields the
notification / hydration / queue logic reads and writes.  `hasWindow`
models `iframeRef.current?.contentWindow` being non-null;
`initializeTimer` models `initializeTimerRef.current !== null`;
`toolInfo`, `toolArguments`, `toolResult`, `isComplete` are the hydration
options of the hook. -/
structure BridgeState where
  iframeState : IframeState
  hasWindow : Bool
  pendingNotifications : List Notif
  initializeTimer : Bool
  toolInfo : JsVal
  toolArguments : JsVal
  toolResult : JsVal
  isComplete : Bool
deriving Repr

/-- Embedding of the bridge's `sendToolNotification`: infer the kind from
the method name, drop the notification when `validateToolParams` fails,
post it immediately when the bridge is `ready` and the iframe window
exists, and push it onto `pendingNotificationsRef` otherwise.  Returns the
new state and the postMessage envelopes emitted. -/
def sendToolNotification (b : BridgeState) (method : String) (params : JsVal) :
    BridgeState × List Notif :=
  if !(validateToolParams params (notifKind method)) then (b, [])
  else if b.iframeState = IframeState.ready && b.hasWindow then
    (b, [⟨method, params⟩])
  else
    ({ b with pendingNotifications := b.pendingNotifications ++ [⟨method, params⟩] }, [])

/-- The `toolInfo?.tool?.name` chain read by `sendHydrationData`. -/
def toolNameVal (b : BridgeState) : JsVal :=
  getProp (getProp b.toolInfo "tool") "name"

/-- The guard `args && typeof args === 'object' && Object.keys(args).length > 0`
used both by hydration and by `processStepUpdate`. -/
def argsNonemptyObj (v : JsVal) : Bool :=
  truthy v && isObjectType v && decide (keyCount v > 0)

/-- The `ui/notifications/tool-input` hydration envelope of
`sendHydrationData`, sent when the parsed arguments form a non-empty
object. -/
def hydInputMsgs (parse : String → Option JsVal) (b : BridgeState) : List Notif :=
  let args := parseMaybeJson parse b.toolArguments
  if argsNonemptyObj args then
    [⟨"ui/notifications/tool-input",
      jobj [("tool", jobj [("name", toolNameVal b)]), ("arguments", args)]⟩]
  else []

/-- The `ui/notifications/tool-result` hydration envelope of
`sendHydrationData`: the recorded result when one exists (distinct from
`undefined` and `''`), else the synthetic `{completed:true}` result when
`isComplete` is truthy, else nothing. -/
def hydResultMsgs (parse : String → Option JsVal) (b : BridgeState) : List Notif :=
  let result := parseMaybeJson parse b.toolResult
  if !(isUndefOrEmptyStr result) then
    [⟨"ui/notifications/tool-result",
      jobj [("tool", jobj [("name", toolNameVal b)]), ("result", result)]⟩]
  else if b.isComplete then
    [⟨"ui/notifications/tool-result",
      jobj [("tool", jobj [("name", toolNameVal b)]),
            ("result", jobj [("completed", jbool true)])]⟩]
  else []

/-- Embedding of `sendHydrationData`: bail out when `toolInfo?.tool?.name`
is falsy or the iframe window is gone, otherwise post the tool-input
envelope (if any) followed by the tool-result envelope (if any). -/
def sendHydrationData (parse : String → Option JsVal) (b : BridgeState) : List Notif :=
  if !(truthy (toolNameVal b)) || !b.hasWindow then []
  else hydInputMsgs parse b ++ hydResultMsgs parse b

/-- Embedding of the `ui/notifications/initialized` case of the bridge's
`handleMessage`: cancel the initialize retry timer, move to `ready`, send
hydration data, then (when the queue is non-empty and the window exists)
replay `pendingNotificationsRef` in order and clear it.  The handler is
not guarded by the current `iframeState`. -/
def handleInitialized (parse : String → Option JsVal) (b : BridgeState) :
    BridgeState × List Notif :=
  let hyd := sendHydrationData parse b
  let doFlush := !b.pendingNotifications.isEmpty && b.hasWindow
  let flushed := if doFlush then b.pendingNotifications else []
  let remaining := if doFlush then [] else b.pendingNotifications
  ({ b with initializeTimer := false,
            iframeState := IframeState.ready,
            pendingNotifications := remaining },
   hyd ++ flushed)

/-- A queued broadcast notification of the provider
(`pendingBroadcastNotificationsRef` entries carry `{method, params, toolName}`). -/
structure BNotif where
  method : String
  params : JsVal
  toolName : String
deriving Repr

/-- State of the provider's tool-notification routing
(`BotDojoChatProvider`): `senders` holds the keys of
`toolNotificationSendersRef` in `Map` insertion order, `pendingPerApp`
models `pendingToolNotificationsRef`, and `pendingBroadcast` models
`pendingBroadcastNotificationsRef`. -/
structure RegistryState where
  senders : List String
  pendingPerApp : List (String × List Notif)
  pendingBroadcast : List BNotif
deriving Repr

/-- The queue push of `sendToolNotificationToApp`:
`if (!map.has(appId)) map.set(appId, []); map.get(appId)!.push(n)`. -/
def pushPerApp (q : List (String × List Notif)) (a : String) (n : Notif) :
    List (String × List Notif) :=
  match q with
  | [] => [(a, [n])]
  | (k, l) :: rest => if k = a then (k, l ++ [n]) :: rest else (k, l) :: pushPerApp rest a n

/-- Embedding of the provider's `sendToolNotificationToApp`: deliver
directly through the registered sender, else queue for replay.  Delivery
is reported as `(appId, envelope)` pairs. -/
def sendToolNotificationToApp (s : RegistryState) (appId method : String) (params : JsVal) :
    RegistryState × List (String × Notif) :=
  if appId ∈ s.senders then (s, [(appId, ⟨method, params⟩)])
  else ({ s with pendingPerApp := pushPerApp s.pendingPerApp appId ⟨method, params⟩ }, [])

/-- JS `a || b` on strings (empty string is the only falsy string). -/
def jsOrStr (a b : String) : String := if a = "" then b else a

/-- The string content of a modelled value, for `params?.tool?.name || ''`. -/
def strOfVal : JsVal → String
  | jstr s => s
  | _ => ""

/-- Embedding of the provider's `broadcastToolNotification`: with no
registered senders, queue the notification (recording
`toolName || params?.tool?.name || ''`); otherwise send to every
registered sender in registration order. -/
def broadcastToolNotification (s : RegistryState) (method : String) (params : JsVal)
    (toolName : Option String) : RegistryState × List (String × Notif) :=
  if s.senders = [] then
    let tn := jsOrStr (toolName.getD "") (strOfVal (getProp (getProp params "tool") "name"))
    ({ s with pendingBroadcast := s.pendingBroadcast ++ [⟨method, params, tn⟩] }, [])
  else
    (s, s.senders.map (fun a => (a, ⟨method, params⟩)))

/-- Embedding of the provider's `registerToolNotificationSender`: record
the sender, replay this app's queued notifications in order and delete its
queue (when non-empty), then replay every queued broadcast notification to
this app and clear the broadcast queue (when non-empty). -/
def registerToolNotificationSender (s : RegistryState) (appId : String) :
    RegistryState × List (String × Notif) :=
  let senders := if appId ∈ s.senders then s.senders else s.senders ++ [appId]
  let perApp := (alook s.pendingPerApp appId).getD []
  let perAppQueues :=
    if perApp.isEmpty then s.pendingPerApp else eraseKey s.pendingPerApp appId
  let broadcastDelivered :=
    s.pendingBroadcast.map (fun bn => (appId, Notif.mk bn.method bn.params))
  let broadcasts := if s.pendingBroadcast.isEmpty then s.pendingBroadcast else []
  ({ senders := senders, pendingPerApp := perAppQueues, pendingBroadcast := broadcasts },
   perApp.map (fun n => (appId, n)) ++ broadcastDelivered)

/-- Sequential application of `sendToolNotificationToApp` for a list of
notifications, accumulating the deliveries. -/
def runSendToApp (s : RegistryState) (appId : String) : List Notif → RegistryState × List (String × Notif)
  | [] => (s, [])
  | n :: rest =>
    let step := sendToolNotificationToApp s appId n.method n.params
    let tail := runSendToApp step.1 appId rest
    (tail.1, step.2 ++ tail.2)

/-- Embedding of the target-app resolution of the provider's
`executeToolCall` (an empty string stands for JS `undefined`, matching the
falsiness tests in the source): take the explicit `targetAppId`, else the
`activeAppByToolRef` entry for the exact tool name, else — when the
context has a name — the entry for the context-prefixed tool name. -/
def resolveTargetApp (targetAppId toolName contextName : String)
    (activeAppByTool : List (String × String)) : String :=
  let r1 := targetAppId
  let r2 := if r1 = "" then (alook activeAppByTool toolName).getD "" else r1
  if r2 = "" && contextName ≠ "" then
    (alook activeAppByTool (contextName ++ "_" ++ toolName)).getD ""
  else r2

/-- The queue push used by `deliverStepUpdate`
(same `has`/`set`/`push` pattern as `pushPerApp`, for any payload type). -/
def pushPerAppGeneric {α : Type} (q : List (String × List α)) (a : String) (u : α) :
    List (String × List α) :=
  match q with
  | [] => [(a, [u])]
  | (k, l) :: rest => if k = a then (k, l ++ [u]) :: rest else (k, l) :: pushPerAppGeneric rest a u

/-- The delivery step shared by `notifyToolInputPartial` and
`notifyToolResult` inside `executeToolCall`: with a resolved app id, send
through that app's registered step-update callback or queue for it;
without one, broadcast to every registered callback. -/
def deliverStepUpdate {α : Type} (resolvedAppId : String) (callbacks : List String)
    (pending : List (String × List α)) (u : α) :
    (List (String × List α)) × List (String × α) :=
  if resolvedAppId ≠ "" then
    if resolvedAppId ∈ callbacks then (pending, [(resolvedAppId, u)])
    else (pushPerAppGeneric pending resolvedAppId u, [])
  else (pending, callbacks.map (fun a => (a, u)))

/-- Embedding of the `step_update` registration in the provider's
`handleMessage`: when a step carries a canvas, record
`canvasId` as the active app for `stepToolName || stepLabel` (when both
are non-empty). -/
def registerActiveApp (active : List (String × String))
    (stepToolName stepLabel canvasId : String) : List (String × String) :=
  let toolName := jsOrStr stepToolName stepLabel
  if toolName ≠ "" && canvasId ≠ "" then setKey active toolName canvasId else active

/-- Object spread `{ ...existing, ...upd }` on modelled records: keys of
`upd` win, keys only in `existing` survive.  (Key order is not observable
through `alook`, which is the only way the cache is read.) -/
def jsSpread (existing upd : List (String × JsVal)) : List (String × JsVal) :=
  existing.filter (fun kv => (alook upd kv.1).isNone) ++ upd

/-- Embedding of the provider's `updateMcpAppDataCache`:
`cache.set(appId, { ...(cache.get(appId) || {}), ...data })`. -/
def updateMcpAppDataCache (cache : List (String × List (String × JsVal)))
    (appId : String) (data : List (String × JsVal)) :
    List (String × List (String × JsVal)) :=
  let existing := (alook cache appId).getD []
  setKey cache appId (jsSpread existing data)

/-- The `cache.get(appId) || {}` read of the cache. -/
def getCachedApp (cache : List (String × List (String × JsVal))) (appId : String) :
    List (String × JsVal) :=
  (alook cache appId).getD []

/-- The conditional-spread update object built in the `step_update` branch
of the provider's `handleMessage`:
`{...(stepArguments ? {arguments} : {}), ...(stepResult !== undefined ?
{result} : {}), ...(stepStatus === 'complete' ? {isComplete:true} : {}),
...(toolName ? {toolInfo} : {})}`. -/
def stepCacheUpdateData (stepArguments stepResult : JsVal) (stepStatus toolName : String) :
    List (String × JsVal) :=
  (if truthy stepArguments then [("arguments", stepArguments)] else [])
  ++ (match stepResult with
      | undef => []
      | r => [("result", r)])
  ++ (if stepStatus = "complete" then [("isComplete", jbool true)] else [])
  ++ (if toolName ≠ "" then
        [("toolInfo", jobj [("tool", jobj [("name", jstr toolName)])])]
      else [])

/-- A pending JSON-RPC request entry of the bridge: only the configured
timeout is observable in the model (the `resolve`/`reject` continuations
are represented by the settlement trace). -/
structure ReqEntry where
  timeoutMs : Nat
deriving Repr, DecidableEq

/-- How a pending request was settled. -/
inductive Settle where
  | resolved : Nat → Settle
  | rejectedError : Nat → Settle
  | rejectedTimeout : Nat → Settle
  | rejectedUnmount : Nat → Settle
deriving Repr, DecidableEq

/-- The request id a settlement concerns. -/
def Settle.sid : Settle → Nat
  | .resolved i => i
  | .rejectedError i => i
  | .rejectedTimeout i => i
  | .rejectedUnmount i => i

/-- State of the bridge's request correlation: `nextId` models
`nextRequestIdRef` and `pending` models `pendingRequestsRef`.  The wire id
`host-${n}` is represented by its counter value `n`. -/
structure ReqState where
  nextId : Nat
  pending : List (Nat × ReqEntry)
deriving Repr, DecidableEq

/-- Events the request machine reacts to.  `fire i` is the `setTimeout`
callback armed by `sendRequest` for id `i`; the runtime only runs it while
the timer is uncancelled, and the timer is cleared exactly when the entry
is removed (matching response or teardown), so its effect is guarded by
membership in `pending`. -/
inductive ReqEvent where
  | send : Nat → ReqEvent
  | response : Nat → Bool → ReqEvent
  | fire : Nat → ReqEvent
  | unmount : ReqEvent
deriving Repr, DecidableEq

/-- One step of the request machine, embedding `sendRequest`, the
response branch of `handleMessage`, the timeout callback, and the unmount
cleanup effect.  Returns the new state and the settlements produced. -/
def reqStep (s : ReqState) : ReqEvent → ReqState × List Settle
  | .send t =>
    let i := s.nextId + 1
    ({ nextId := i, pending := s.pending ++ [(i, ⟨t⟩)] }, [])
  | .response i isErr =>
    match alook s.pending i with
    | some _ =>
      ({ s with pending := eraseKey s.pending i },
       [if isErr then Settle.rejectedError i else Settle.resolved i])
    | none => (s, [])
  | .fire i =>
    match alook s.pending i with
    | some _ => ({ s with pending := eraseKey s.pending i }, [Settle.rejectedTimeout i])
    | none => (s, [])
  | .unmount =>
    ({ s with pending := [] }, s.pending.map (fun p => Settle.rejectedUnmount p.1))

/-- Run the request machine over a list of events, concatenating the
settlements in order. -/
def reqRun (s : ReqState) : List ReqEvent → ReqState × List Settle
  | [] => (s, [])
  | e :: rest =>
    let step := reqStep s e
    let tail := reqRun step.1 rest
    (tail.1, step.2 ++ tail.2)

/-- Well-formedness of a request state: pending ids are distinct and never
exceed the id counter (every id was minted by `sendRequest`). -/
def ReqInv (s : ReqState) : Prop :=
  (s.pending.map Prod.fst).Nodup ∧ ∀ i ∈ s.pending.map Prod.fst, i ≤ s.nextId

instance (s : ReqState) : Decidable (ReqInv s) := by
  unfold ReqInv; infer_instance

/-- Whether an event settles request id `i` when `i` is pending. -/
def relevantTo (i : Nat) : ReqEvent → Bool
  | .response j _ => j = i
  | .fire j => j = i
  | .unmount => true
  | .send _ => false

/-- The settlements of a trace that concern id `i`. -/
def settlesOf (i : Nat) (l : List Settle) : List Settle :=
  l.filter (fun st => st.sid = i)

/-- Split a character list at the first occurrence of `ch`, returning the
part before it and the part after it. -/
def takeUntil (ch : Char) : List Char → Option (List Char × List Char)
  | [] => none
  | c :: rest =>
    if c = ch then some ([], rest)
    else
      match takeUntil ch rest with
      | some (a, b) => some (c :: a, b)
      | none => none

/-- Locate the first `\x7bname\x7d` placeholder of a template, returning
the literal part before it, the parameter name, and the remaining literal
part after it (the decomposition performed by the
`template.replace(/\x7b([^\x7d]+)\x7d/g, ...)` calls of
`BotDojoConnector.matchesUriTemplate` / `extractUriParams`). -/
def findParam (template : List Char) : Option (List Char × List Char × List Char) :=
  match takeUntil '{' template with
  | none => none
  | some (pre, rest) =>
    match takeUntil '}' rest with
    | none => none
    | some (nm, suf) => some (pre, nm, suf)

/-- Embedding of `BotDojoConnector.extractUriParams` for a template with a
single placeholder whose literal parts carry no regex metacharacters
(true of every template in the claims): the placeholder is compiled to the
anchored greedy group `(.+)`, so the URI matches exactly when it
decomposes as `literal-head ++ value ++ literal-tail` with a non-empty
`value`, and the captured value is that middle segment — slashes
included. -/
def extractWithParts (uri pre nm suf : List Char) : Option (List Char × List Char) :=
  if nm = [] then none
  else if uri.length > pre.length + suf.length
      ∧ uri.take pre.length = pre
      ∧ uri.drop (pre.length + (uri.length - (pre.length + suf.length))) = suf then
    some (nm, (uri.drop pre.length).take (uri.length - (pre.length + suf.length)))
  else none

/-- Embedding of `BotDojoConnector.extractUriParams` restricted to
single-placeholder templates: locate the placeholder, then run the
anchored greedy match `extractWithParts`. -/
def extractUriParamSingle (uri template : List Char) :
    Option (List Char × List Char) :=
  match findParam template with
  | none => none
  | some (pre, nm, suf) => extractWithParts uri pre nm suf

/-- Embedding of `BotDojoConnector.matchesUriTemplate` for the same class
of templates: the anchored regex built from the template matches the URI. -/
def matchesUriTemplateSingle (uri template : List Char) : Bool :=
  (extractUriParamSingle uri template).isSome

lemma alook_append_of_none {κ β : Type} [DecidableEq κ] (l1 l2 : List (κ × β)) (k : κ)
    (h : alook l1 k = none) : alook (l1 ++ l2) k = alook l2 k := by
  induction l1 with
  | nil => simp
  | cons hd tl ih =>
    obtain ⟨k', v'⟩ := hd
    by_cases hk : k' = k
    · simp [alook, hk] at h
    · simp only [List.cons_append, alook, if_neg hk]
      exact ih (by simpa [alook, if_neg hk] using h)

lemma alook_none_iff {κ β : Type} [DecidableEq κ] (l : List (κ × β)) (k : κ) :
    alook l k = none ↔ k ∉ l.map Prod.fst := by
  induction l with
  | nil => simp [alook]
  | cons hd tl ih =>
    obtain ⟨k', v'⟩ := hd
    by_cases hk : k' = k
    · simp [alook, hk]
    · simp [alook, hk, ih, Ne.symm hk]

lemma alook_eraseKey_ne {κ β : Type} [DecidableEq κ] (l : List (κ × β)) (k j : κ)
    (h : j ≠ k) : alook (eraseKey l k) j = alook l j := by
  induction l with
  | nil => simp [eraseKey]
  | cons hd tl ih =>
    obtain ⟨k', v'⟩ := hd
    by_cases hk : k' = k
    · subst hk
      simp [eraseKey, alook, Ne.symm h]
    · simp [eraseKey, alook, hk, ih]

lemma eraseKey_sublist {κ β : Type} [DecidableEq κ] (l : List (κ × β)) (k : κ) :
    List.Sublist (eraseKey l k) l := by
  induction l with
  | nil => simp [eraseKey]
  | cons hd tl ih =>
    obtain ⟨k', v'⟩ := hd
    by_cases hk : k' = k
    · simp only [eraseKey, if_pos hk]
      exact List.sublist_cons_self (k', v') tl
    · simpa [eraseKey, hk] using List.Sublist.cons₂ (k', v') ih

lemma alook_eraseKey_self {κ β : Type} [DecidableEq κ] (l : List (κ × β)) (k : κ)
    (h : (l.map Prod.fst).Nodup) : alook (eraseKey l k) k = none := by
  induction l with
  | nil => simp [eraseKey, alook]
  | cons hd tl ih =>
    obtain ⟨k', v'⟩ := hd
    simp only [List.map_cons, List.nodup_cons] at h
    by_cases hk : k' = k
    · subst hk
      simp only [eraseKey, if_pos rfl]
      exact (alook_none_iff _ _).2 h.1
    · simp only [eraseKey, if_neg hk, alook, if_neg hk]
      exact ih h.2

lemma alook_setKey_self {κ β : Type} [DecidableEq κ] (l : List (κ × β)) (k : κ) (v : β) :
    alook (setKey l k v) k = some v := by
  induction l with
  | nil => simp [setKey, alook]
  | cons hd tl ih =>
    obtain ⟨k', v'⟩ := hd
    by_cases hk : k' = k
    · simp [setKey, hk, alook]
    · simp [setKey, hk, alook, ih]

lemma alook_filter_none {κ β : Type} [DecidableEq κ] (l : List (κ × β)) (k : κ)
    (p : κ × β → Bool) (hP : ∀ v, p (k, v) = false) : alook (l.filter p) k = none := by
  induction l with
  | nil => simp [alook]
  | cons hd tl ih =>
    obtain ⟨k', v'⟩ := hd
    by_cases hp : p (k', v')
    · by_cases hk : k' = k
      · subst hk; simp [hP v'] at hp
      · simp [List.filter_cons, hp, alook, hk, ih]
    · simp [List.filter_cons, hp, ih]

lemma alook_jsSpread_of_some (e u : List (String × JsVal)) (k : String) (v : JsVal)
    (h : alook u k = some v) : alook (jsSpread e u) k = some v := by
  unfold jsSpread
  rw [alook_append_of_none, h]
  exact alook_filter_none _ _ _ (fun w => by simp [h])

lemma alook_jsSpread_of_none (e u : List (String × JsVal)) (k : String)
    (h : alook u k = none) : alook (jsSpread e u) k = alook e k := by
  unfold jsSpread
  induction e with
  | nil => simpa [alook] using h
  | cons hd tl ih =>
    obtain ⟨k', v'⟩ := hd
    by_cases hk : k' = k
    · subst hk
      simp [List.filter_cons, h, alook]
    · by_cases hs : (alook u k').isNone
      · simp [List.filter_cons, hs, alook, hk, ih]
      · simp [List.filter_cons, hs, alook, hk, ih]

lemma validateToolParams_result_iff (params : JsVal) :
    validateToolParams params "result" = true ↔
      getProp params "result" ≠ JsVal.undef ∧ getProp params "result" ≠ JsVal.jstr "" := by
  unfold validateToolParams
  rw [if_pos rfl]
  cases h : getProp params "result" <;> simp [isUndefOrEmptyStr]

lemma validateToolParams_args_iff (params : JsVal) (kind : String) (h : kind ≠ "result") :
    validateToolParams params kind = true ↔
      truthy (getProp params "arguments") = true ∧
      isObjectType (getProp params "arguments") = true ∧
      keyCount (getProp params "arguments") > 0 := by
  unfold validateToolParams
  rw [if_neg h]
  cases harg : getProp params "arguments" <;>
    simp [truthy, isObjectType, isUndefOrEmptyStr, keyCount, and_assoc]

/-- C8: a cache merge `updateMcpAppDataCache` is field-additive: any field
of the cached record that the partial update does not carry keeps its old
value; in particular the conditional-spread update object built in the
`step_update` branch never carries `html`, so previously resolved HTML
survives every such update. -/
theorem merge_preserves_resolved_fields
    (cache : List (String × List (String × JsVal))) (appId : String)
    (data : List (String × JsVal)) (f : String) (v w : JsVal)
    (args res : JsVal) (st tn : String)
    (h1 : alook (getCachedApp cache appId) f = some v)
    (h2 : alook data f = none)
    (hh : alook (getCachedApp cache appId) "html" = some w) :
    alook (getCachedApp (updateMcpAppDataCache cache appId data) appId) f = some v ∧
    alook (stepCacheUpdateData args res st tn) "html" = none ∧
    alook (getCachedApp
      (updateMcpAppDataCache cache appId (stepCacheUpdateData args res st tn)) appId)
      "html" = some w := by
  have hmain : ∀ (d : List (String × JsVal)) (g : String) (x : JsVal),
      alook (getCachedApp cache appId) g = some x → alook d g = none →
      alook (getCachedApp (updateMcpAppDataCache cache appId d) appId) g = some x := by
    intro d g x hg hd
    unfold updateMcpAppDataCache getCachedApp
    rw [alook_setKey_self]
    simp only [Option.getD_some]
    rw [alook_jsSpread_of_none _ _ _ hd]
    exact hg
  have hnohtml : ∀ (a r : JsVal) (s t : String),
      alook (stepCacheUpdateData a r s t) "html" = none := by
    intro a r s t
    unfold stepCacheUpdateData
    split_ifs <;> cases r <;> simp [alook]
  exact ⟨hmain data f v h1 h2, hnohtml args res st tn,
         hmain _ "html" w hh (hnohtml args res st tn)⟩

/-- Witness for C8 at a concrete cache: a record with resolved `html` and
`url` merged with a result-only step update keeps its `url` (and `html`). -/
theorem merge_preserves_resolved_fields_witness :
    alook (getCachedApp
      (updateMcpAppDataCache
        [("a", [("html", JsVal.jstr "<div/>"), ("url", JsVal.jstr "u")])]
        "a"
        (stepCacheUpdateData JsVal.undef (JsVal.jnum 1) "complete" "t"))
      "a") "html" = some (JsVal.jstr "<div/>") :=
  (merge_preserves_resolved_fields
    [("a", [("html", JsVal.jstr "<div/>"), ("url", JsVal.jstr "u")])]
    "a" (stepCacheUpdateData JsVal.undef (JsVal.jnum 1) "complete" "t")
    "url" (JsVal.jstr "u") (JsVal.jstr "<div/>")
    JsVal.undef (JsVal.jnum 1) "complete" "t"
    rfl rfl rfl).2.2

/-- C10: `parseMaybeJson` is a total function that returns `undefined` for
`undefined`, `null` and `''`, returns objects (and arrays) unchanged,
returns the parse result for a string that `JSON.parse` accepts, and
returns a string that `JSON.parse` rejects unchanged — never an error. -/
theorem parseMaybeJson_total_spec (parse : String → Option JsVal)
    (fs : List (String × JsVal)) (es : List JsVal) (s t : String) (w : JsVal)
    (hs : s ≠ "") (htrim : trimChars s.data ≠ []) (hsome : parse s = some w)
    (ht : t ≠ "") (hnone : parse t = none) :
    parseMaybeJson parse JsVal.undef = JsVal.undef ∧
    parseMaybeJson parse JsVal.jnull = JsVal.undef ∧
    parseMaybeJson parse (JsVal.jstr "") = JsVal.undef ∧
    parseMaybeJson parse (JsVal.jobj fs) = JsVal.jobj fs ∧
    parseMaybeJson parse (JsVal.jarr es) = JsVal.jarr es ∧
    parseMaybeJson parse (JsVal.jstr s) = w ∧
    parseMaybeJson parse (JsVal.jstr t) = JsVal.jstr t := by
  refine ⟨rfl, rfl, rfl, rfl, rfl, ?_, ?_⟩
  · simp [parseMaybeJson, hs, htrim, hsome]
  · by_cases h : trimChars t.data = [] <;> simp [parseMaybeJson, ht, h, hnone]

/-- Witness for C10 with a concrete parse function: the JSON string
`"[1]"` is parsed, the non-JSON string `"oops"` is returned unchanged. -/
theorem parseMaybeJson_total_spec_witness :
    parseMaybeJson
      (fun u => if u = "[1]" then some (JsVal.jarr [JsVal.jnum 1]) else none)
      (JsVal.jstr "oops") = JsVal.jstr "oops" :=
  (parseMaybeJson_total_spec
    (fun u => if u = "[1]" then some (JsVal.jarr [JsVal.jnum 1]) else none)
    [] [] "[1]" "oops" (JsVal.jarr [JsVal.jnum 1])
    (by decide) (by decide) rfl (by decide) rfl).2.2.2.2.2.2

/-- C4: `sendToolNotification` drops (no postMessage, no queueing) every
payload failing `validateToolParams` — in particular a `tool-input` with
an empty arguments object — and otherwise posts immediately when the
bridge is `ready` (iframe window present) and enqueues otherwise; the
validator requires a non-empty result for result-kind methods and a
non-empty arguments object for input/partial-kind methods. -/
theorem sendToolNotification_validation (b : BridgeState) (method : String) (params : JsVal)
    (hw : b.hasWindow = true) :
    (validateToolParams params (notifKind method) = false →
      sendToolNotification b method params = (b, [])) ∧
    (∀ c : BridgeState, sendToolNotification c "ui/notifications/tool-input"
        (JsVal.jobj [("tool", JsVal.jobj [("name", JsVal.jstr "t")]),
                     ("arguments", JsVal.jobj [])]) = (c, [])) ∧
    (validateToolParams params (notifKind method) = true →
      b.iframeState = IframeState.ready →
      sendToolNotification b method params = (b, [⟨method, params⟩])) ∧
    (validateToolParams params (notifKind method) = true →
      b.iframeState ≠ IframeState.ready →
      sendToolNotification b method params =
        ({ b with pendingNotifications := b.pendingNotifications ++ [⟨method, params⟩] }, [])) ∧
    (strIncludes method "result" = true →
      (validateToolParams params (notifKind method) = true ↔
        getProp params "result" ≠ JsVal.undef ∧ getProp params "result" ≠ JsVal.jstr "")) ∧
    (strIncludes method "result" = false →
      (validateToolParams params (notifKind method) = true ↔
        truthy (getProp params "arguments") = true ∧
        isObjectType (getProp params "arguments") = true ∧
        keyCount (getProp params "arguments") > 0)) := by
  refine ⟨?_, ?_, ?_, ?_, ?_, ?_⟩
  · intro h
    simp [sendToolNotification, h]
  · intro c
    have hv : validateToolParams
        (JsVal.jobj [("tool", JsVal.jobj [("name", JsVal.jstr "t")]),
                     ("arguments", JsVal.jobj [])])
        (notifKind "ui/notifications/tool-input") = false := by decide
    simp [sendToolNotification, hv]
  · intro hv hr
    simp [sendToolNotification, hv, hr, hw]
  · intro hv hr
    simp [sendToolNotification, hv, hr]
  · intro hres
    have hk : notifKind method = "result" := by simp [notifKind, hres]
    rw [hk]
    exact validateToolParams_result_iff params
  · intro hres
    have hk : notifKind method ≠ "result" := by
      by_cases hp : strIncludes method "partial" <;> simp [notifKind, hres, hp]
    exact validateToolParams_args_iff params _ hk

/-- Witness for C4: a ready bridge posts a valid tool-result immediately. -/
theorem sendToolNotification_validation_witness :
    sendToolNotification
      ⟨IframeState.ready, true, [], false, JsVal.undef, JsVal.undef, JsVal.undef, false⟩
      "ui/notifications/tool-result" (JsVal.jobj [("result", JsVal.jnum 2)]) =
    (⟨IframeState.ready, true, [], false, JsVal.undef, JsVal.undef, JsVal.undef, false⟩,
     [⟨"ui/notifications/tool-result", JsVal.jobj [("result", JsVal.jnum 2)]⟩]) :=
  (sendToolNotification_validation
    ⟨IframeState.ready, true, [], false, JsVal.undef, JsVal.undef, JsVal.undef, false⟩
    "ui/notifications/tool-result" (JsVal.jobj [("result", JsVal.jnum 2)])
    rfl).2.2.1 (by decide) rfl

lemma registerSender_no_broadcast (s : RegistryState) (c : String)
    (h : s.pendingBroadcast = []) :
    (registerToolNotificationSender s c).2 =
      ((alook s.pendingPerApp c).getD []).map (fun n => (c, n)) := by
  simp [registerToolNotificationSender, h]

/-- C2: a broadcast notification sent while zero apps are registered is
queued; the first app that registers afterwards receives the whole
broadcast queue (this notification included) and the queue is cleared, so
any app registering later receives nothing from it. -/
theorem broadcast_consumed_once (s : RegistryState) (m : String) (p : JsVal)
    (tn : Option String) (a : String) (h0 : s.senders = []) :
    (broadcastToolNotification s m p tn).2 = [] ∧
    (broadcastToolNotification s m p tn).1.pendingBroadcast =
      s.pendingBroadcast ++
        [BNotif.mk m p (jsOrStr (tn.getD "") (strOfVal (getProp (getProp p "tool") "name")))] ∧
    (registerToolNotificationSender (broadcastToolNotification s m p tn).1 a).2 =
      ((alook s.pendingPerApp a).getD []).map (fun n => (a, n)) ++
        (s.pendingBroadcast ++
          [BNotif.mk m p (jsOrStr (tn.getD "") (strOfVal (getProp (getProp p "tool") "name")))]).map
          (fun bn => (a, Notif.mk bn.method bn.params)) ∧
    (a, Notif.mk m p) ∈
      (registerToolNotificationSender (broadcastToolNotification s m p tn).1 a).2 ∧
    (registerToolNotificationSender (broadcastToolNotification s m p tn).1 a).1.pendingBroadcast
      = [] ∧
    (∀ s' : RegistryState, s'.pendingBroadcast = [] → ∀ c : String,
      (registerToolNotificationSender s' c).2 =
        ((alook s'.pendingPerApp c).getD []).map (fun n => (c, n))) := by
  refine ⟨?_, ?_, ?_, ?_, ?_, ?_⟩
  · simp [broadcastToolNotification, h0]
  · simp [broadcastToolNotification, h0]
  · simp [broadcastToolNotification, registerToolNotificationSender, h0]
  · simp only [broadcastToolNotification, h0, if_pos rfl, registerToolNotificationSender]
    simp [List.mem_append, List.mem_map]
  · simp [broadcastToolNotification, registerToolNotificationSender, h0]
  · intro s' h' c
    exact registerSender_no_broadcast s' c h'

/-- Witness for C2: one broadcast from the empty registry reaches the
first registrant "A". -/
theorem broadcast_consumed_once_witness :
    (registerToolNotificationSender
      (broadcastToolNotification ⟨[], [], []⟩ "ui/notifications/tool-result"
        (JsVal.jobj [("result", JsVal.jnum 1)]) none).1 "A").2 =
      [("A", Notif.mk "ui/notifications/tool-result" (JsVal.jobj [("result", JsVal.jnum 1)]))] := by
  have h := (broadcast_consumed_once ⟨[], [], []⟩ "ui/notifications/tool-result"
    (JsVal.jobj [("result", JsVal.jnum 1)]) none "A" rfl).2.2.1
  simpa [alook, jsOrStr, strOfVal, getProp] using h

/-- C6: `executeToolCall` resolves the target app with precedence explicit
id → active app for the exact tool name → active app for the
context-prefixed tool name → broadcast; a targeted delivery reaches only
the resolved app while an unresolved one broadcasts to every registered
callback.  Scenario D: with only app "A" recorded active for "render", a
target-less call routes to "A" and never to "B". -/
theorem executeToolCall_routing_precedence {α : Type}
    (t toolName cn x r : String) (active : List (String × String))
    (cbs : List String) (pending : List (String × List α)) (u : α) :
    (t ≠ "" → resolveTargetApp t toolName cn active = t) ∧
    (alook active toolName = some x → x ≠ "" →
      resolveTargetApp "" toolName cn active = x) ∧
    (alook active toolName = none → cn ≠ "" →
      resolveTargetApp "" toolName cn active =
        (alook active (cn ++ "_" ++ toolName)).getD "") ∧
    (deliverStepUpdate "" cbs pending u = (pending, cbs.map (fun c => (c, u)))) ∧
    (r ≠ "" → r ∈ cbs → deliverStepUpdate r cbs pending u = (pending, [(r, u)])) ∧
    (registerActiveApp [] "render" "" "A" = [("render", "A")] ∧
      resolveTargetApp "" "render" cn [("render", "A")] = "A" ∧
      deliverStepUpdate "A" ["A", "B"] pending u = (pending, [("A", u)]) ∧
      ("B", u) ∉ (deliverStepUpdate "A" ["A", "B"] pending u).2) := by
  refine ⟨?_, ?_, ?_, ?_, ?_, ?_, ?_, ?_, ?_⟩
  · intro h
    simp [resolveTargetApp, h]
  · intro h hx
    simp [resolveTargetApp, h, hx]
  · intro h hcn
    simp [resolveTargetApp, h, hcn]
  · simp [deliverStepUpdate]
  · intro hr hmem
    simp [deliverStepUpdate, hr, hmem]
  · simp [registerActiveApp, jsOrStr, setKey]
  · simp [resolveTargetApp, alook]
  · simp [deliverStepUpdate]
  · simp [deliverStepUpdate]

/-- Witness for C6 at Scenario D's concrete data. -/
theorem executeToolCall_routing_precedence_witness :
    deliverStepUpdate "A" ["A", "B"] ([] : List (String × List Nat)) 7
      = ([], [("A", 7)]) :=
  (executeToolCall_routing_precedence "tgt" "render" "ctx" "A" "A"
    [("render", "A")] ["A", "B"] ([] : List (String × List Nat)) 7).2.2.2.2.2.2.2.1

/-- Number of envelopes in a list carrying a given method. -/
def countMethod (l : List Notif) (m : String) : Nat :=
  (l.filter (fun n => n.method = m)).length

/-- C3: on receipt of `ui/notifications/initialized` the bridge cancels
the retry timer, becomes `ready`, and hydrates: exactly one `tool-input`
when the supplied arguments parse to a non-empty object (none otherwise),
followed by exactly one `tool-result` carrying the recorded result when
one exists, else the synthetic `{completed:true}` result when
`isComplete`, else no `tool-result` at all. -/
theorem initialized_hydration_spec (parse : String → Option JsVal) (b : BridgeState)
    (nm : String) (hname : toolNameVal b = JsVal.jstr nm) (hnm : nm ≠ "")
    (hw : b.hasWindow = true) :
    (handleInitialized parse b).1.initializeTimer = false ∧
    (handleInitialized parse b).1.iframeState = IframeState.ready ∧
    (handleInitialized parse b).2 = sendHydrationData parse b ++ b.pendingNotifications ∧
    sendHydrationData parse b = hydInputMsgs parse b ++ hydResultMsgs parse b ∧
    (argsNonemptyObj (parseMaybeJson parse b.toolArguments) = true →
      hydInputMsgs parse b =
        [⟨"ui/notifications/tool-input",
          JsVal.jobj [("tool", JsVal.jobj [("name", JsVal.jstr nm)]),
                      ("arguments", parseMaybeJson parse b.toolArguments)]⟩]) ∧
    (argsNonemptyObj (parseMaybeJson parse b.toolArguments) = false →
      hydInputMsgs parse b = []) ∧
    (isUndefOrEmptyStr (parseMaybeJson parse b.toolResult) = false →
      hydResultMsgs parse b =
        [⟨"ui/notifications/tool-result",
          JsVal.jobj [("tool", JsVal.jobj [("name", JsVal.jstr nm)]),
                      ("result", parseMaybeJson parse b.toolResult)]⟩]) ∧
    (isUndefOrEmptyStr (parseMaybeJson parse b.toolResult) = true → b.isComplete = true →
      hydResultMsgs parse b =
        [⟨"ui/notifications/tool-result",
          JsVal.jobj [("tool", JsVal.jobj [("name", JsVal.jstr nm)]),
                      ("result", JsVal.jobj [("completed", JsVal.jbool true)])]⟩]) ∧
    (isUndefOrEmptyStr (parseMaybeJson parse b.toolResult) = true → b.isComplete = false →
      hydResultMsgs parse b = []) := by
  refine ⟨?_, ?_, ?_, ?_, ?_, ?_, ?_, ?_, ?_⟩
  · simp [handleInitialized]
  · simp [handleInitialized]
  · cases hpn : b.pendingNotifications <;> simp [handleInitialized, hw, hpn]
  · simp [sendHydrationData, hname, truthy, hnm, hw]
  · intro h
    simp [hydInputMsgs, h, hname]
  · intro h
    simp [hydInputMsgs, h]
  · intro h
    simp [hydResultMsgs, h, hname]
  · intro h hc
    simp [hydResultMsgs, h, hc, hname]
  · intro h hc
    simp [hydResultMsgs, h, hc]

/-- Witness for C3 at Scenario B's data: completed tool without a recorded
result yields exactly the synthetic `{completed:true}` tool-result. -/
theorem initialized_hydration_spec_witness :
    hydResultMsgs (fun _ => none)
      ⟨IframeState.initializing, true, [], true,
       JsVal.jobj [("tool", JsVal.jobj [("name", JsVal.jstr "search")])],
       JsVal.jobj [("q", JsVal.jstr "x")], JsVal.undef, true⟩ =
      [⟨"ui/notifications/tool-result",
        JsVal.jobj [("tool", JsVal.jobj [("name", JsVal.jstr "search")]),
                    ("result", JsVal.jobj [("completed", JsVal.jbool true)])]⟩] :=
  (initialized_hydration_spec (fun _ => none)
    ⟨IframeState.initializing, true, [], true,
     JsVal.jobj [("tool", JsVal.jobj [("name", JsVal.jstr "search")])],
     JsVal.jobj [("q", JsVal.jstr "x")], JsVal.undef, true⟩
    "search" rfl (by decide) rfl).2.2.2.2.2.2.2.1 rfl rfl

lemma sendHydrationData_after_init (parse : String → Option JsVal) (b : BridgeState) :
    sendHydrationData parse (handleInitialized parse b).1 = sendHydrationData parse b := rfl

/-- C9: the `ui/notifications/initialized` handler is not guarded by the
bridge state: a duplicate acknowledgment received once the bridge is
already `ready` (and its queue already flushed) sends the full hydration
payload again — in particular a second `tool-input` envelope. -/
theorem duplicate_initialized_resends_hydration (parse : String → Option JsVal)
    (b : BridgeState) (nm : String)
    (hname : toolNameVal b = JsVal.jstr nm) (hnm : nm ≠ "") (hw : b.hasWindow = true)
    (hargs : argsNonemptyObj (parseMaybeJson parse b.toolArguments) = true) :
    (handleInitialized parse b).1.iframeState = IframeState.ready ∧
    (handleInitialized parse (handleInitialized parse b).1).2 = sendHydrationData parse b ∧
    countMethod (handleInitialized parse (handleInitialized parse b).1).2
      "ui/notifications/tool-input" = 1 := by
  have hb1 : (handleInitialized parse b).1.pendingNotifications = [] := by
    cases hpn : b.pendingNotifications <;> simp [handleInitialized, hw, hpn]
  have hout : (handleInitialized parse (handleInitialized parse b).1).2 =
      sendHydrationData parse b := by
    rw [show (handleInitialized parse (handleInitialized parse b).1).2 =
        sendHydrationData parse (handleInitialized parse b).1 ++
          (if !((handleInitialized parse b).1.pendingNotifications).isEmpty &&
              (handleInitialized parse b).1.hasWindow
           then (handleInitialized parse b).1.pendingNotifications else []) from rfl]
    rw [hb1, sendHydrationData_after_init]
    simp
  refine ⟨by simp [handleInitialized], hout, ?_⟩
  rw [hout]
  have hguard : sendHydrationData parse b = hydInputMsgs parse b ++ hydResultMsgs parse b := by
    simp [sendHydrationData, hname, truthy, hnm, hw]
  have hin : hydInputMsgs parse b =
      [⟨"ui/notifications/tool-input",
        JsVal.jobj [("tool", JsVal.jobj [("name", toolNameVal b)]),
                    ("arguments", parseMaybeJson parse b.toolArguments)]⟩] := by
    simp [hydInputMsgs, hargs]
  rw [hguard, hin]
  unfold hydResultMsgs
  by_cases hres : isUndefOrEmptyStr (parseMaybeJson parse b.toolResult) = false
  · simp [countMethod, hres]
  · by_cases hc : b.isComplete <;> simp [countMethod, hres, hc]

/-- Witness for C9: a concrete ready bridge re-sends its hydration
tool-input on a duplicate initialized acknowledgment. -/
theorem duplicate_initialized_resends_hydration_witness :
    countMethod
      (handleInitialized (fun _ => none)
        (handleInitialized (fun _ => none)
          ⟨IframeState.initializing, true, [], true,
           JsVal.jobj [("tool", JsVal.jobj [("name", JsVal.jstr "search")])],
           JsVal.jobj [("q", JsVal.jstr "x")], JsVal.undef, false⟩).1).2
      "ui/notifications/tool-input" = 1 :=
  (duplicate_initialized_resends_hydration (fun _ => none)
    ⟨IframeState.initializing, true, [], true,
     JsVal.jobj [("tool", JsVal.jobj [("name", JsVal.jstr "search")])],
     JsVal.jobj [("q", JsVal.jstr "x")], JsVal.undef, false⟩
    "search" rfl (by decide) rfl rfl).2.2

/-- Folding `pushPerApp` over a list of notifications. -/
def pushMany (q : List (String × List Notif)) (a : String) (ns : List Notif) :
    List (String × List Notif) :=
  ns.foldl (fun acc n => pushPerApp acc a n) q

lemma pushPerApp_absent (q : List (String × List Notif)) (a : String) (n : Notif)
    (h : alook q a = none) : pushPerApp q a n = q ++ [(a, [n])] := by
  induction q with
  | nil => simp [pushPerApp]
  | cons hd tl ih =>
    obtain ⟨k, l⟩ := hd
    by_cases hk : k = a
    · simp [alook, hk] at h
    · simp only [alook, if_neg hk] at h
      simp [pushPerApp, hk, ih h]

lemma pushPerApp_found_after (q : List (String × List Notif)) (a : String)
    (l : List Notif) (n : Notif) (h : alook q a = none) :
    pushPerApp (q ++ [(a, l)]) a n = q ++ [(a, l ++ [n])] := by
  induction q with
  | nil => simp [pushPerApp]
  | cons hd tl ih =>
    obtain ⟨k, v⟩ := hd
    by_cases hk : k = a
    · simp [alook, hk] at h
    · simp only [alook, if_neg hk] at h
      simp [pushPerApp, hk, ih h]

lemma pushMany_extend (q : List (String × List Notif)) (a : String)
    (l : List Notif) (ns : List Notif) (h : alook q a = none) :
    pushMany (q ++ [(a, l)]) a ns = q ++ [(a, l ++ ns)] := by
  induction ns generalizing l with
  | nil => simp [pushMany]
  | cons n rest ih =>
    show pushMany (pushPerApp (q ++ [(a, l)]) a n) a rest = _
    rw [pushPerApp_found_after q a l n h, ih (l ++ [n])]
    simp

lemma pushMany_absent (q : List (String × List Notif)) (a : String) (ns : List Notif)
    (h : alook q a = none) (hne : ns ≠ []) : pushMany q a ns = q ++ [(a, ns)] := by
  cases ns with
  | nil => exact absurd rfl hne
  | cons n rest =>
    show pushMany (pushPerApp q a n) a rest = _
    rw [pushPerApp_absent q a n h, pushMany_extend q a [n] rest h]
    simp

lemma runSendToApp_unregistered (s : RegistryState) (a : String) (ns : List Notif)
    (h : a ∉ s.senders) :
    runSendToApp s a ns = ({ s with pendingPerApp := pushMany s.pendingPerApp a ns }, []) := by
  induction ns generalizing s with
  | nil => simp [runSendToApp, pushMany]
  | cons n rest ih =>
    have hstep : sendToolNotificationToApp s a n.method n.params =
        ({ s with pendingPerApp := pushPerApp s.pendingPerApp a n }, []) := by
      simp [sendToolNotificationToApp, h]
    have hsenders : ({ s with pendingPerApp := pushPerApp s.pendingPerApp a n } :
        RegistryState).senders = s.senders := rfl
    simp only [runSendToApp, hstep]
    rw [ih _ (by rw [hsenders]; exact h)]
    rfl

lemma eraseKey_append_last (q : List (String × List Notif)) (a : String) (l : List Notif)
    (h : alook q a = none) : eraseKey (q ++ [(a, l)]) a = q := by
  induction q with
  | nil => simp [eraseKey]
  | cons hd tl ih =>
    obtain ⟨k, v⟩ := hd
    by_cases hk : k = a
    · simp [alook, hk] at h
    · simp only [alook, if_neg hk] at h
      simp [eraseKey, hk, ih h]

/-- C1: notifications sent to an unregistered app are queued without any
delivery; registering the app replays exactly that queue in FIFO order,
empties it, and a second registration replays nothing; likewise the
bridge-level queue is flushed in order by the `initialized` handler,
emptied, and a duplicate `initialized` flushes nothing more. -/
theorem queue_fifo_exactly_once_replay (s : RegistryState) (a : String) (ns : List Notif)
    (parse : String → Option JsVal) (b : BridgeState)
    (ha : a ∉ s.senders) (hq : alook s.pendingPerApp a = none)
    (hb : s.pendingBroadcast = []) (hw : b.hasWindow = true) :
    (runSendToApp s a ns).2 = [] ∧
    (registerToolNotificationSender (runSendToApp s a ns).1 a).2 =
      ns.map (fun n => (a, n)) ∧
    alook (registerToolNotificationSender (runSendToApp s a ns).1 a).1.pendingPerApp a
      = none ∧
    (registerToolNotificationSender
      (registerToolNotificationSender (runSendToApp s a ns).1 a).1 a).2 = [] ∧
    (handleInitialized parse b).2 = sendHydrationData parse b ++ b.pendingNotifications ∧
    (handleInitialized parse b).1.pendingNotifications = [] ∧
    (handleInitialized parse (handleInitialized parse b).1).2 =
      sendHydrationData parse b := by
  have hrun := runSendToApp_unregistered s a ns ha
  have hpush : ∀ (n : Notif) (rest : List Notif),
      pushMany s.pendingPerApp a (n :: rest) = s.pendingPerApp ++ [(a, n :: rest)] :=
    fun n rest => pushMany_absent s.pendingPerApp a (n :: rest) hq (by simp)
  have hlook : ∀ (n : Notif) (rest : List Notif),
      alook (s.pendingPerApp ++ [(a, n :: rest)]) a = some (n :: rest) := by
    intro n rest
    rw [alook_append_of_none _ _ _ hq]
    simp [alook]
  refine ⟨by rw [hrun], ?_, ?_, ?_, ?_, ?_, ?_⟩
  · rw [hrun]
    cases ns with
    | nil => simp [registerToolNotificationSender, pushMany, hq, hb]
    | cons n rest =>
      simp [registerToolNotificationSender, hpush n rest, hlook n rest, hb]
  · rw [hrun]
    cases ns with
    | nil => simp [registerToolNotificationSender, pushMany, hq, hb]
    | cons n rest =>
      simp [registerToolNotificationSender, hpush n rest, hlook n rest, hb,
            eraseKey_append_last s.pendingPerApp a (n :: rest) hq, hq]
  · rw [hrun]
    cases ns with
    | nil => simp [registerToolNotificationSender, pushMany, hq, hb]
    | cons n rest =>
      simp [registerToolNotificationSender, hpush n rest, hlook n rest, hb,
            eraseKey_append_last s.pendingPerApp a (n :: rest) hq, hq]
  · cases hpn : b.pendingNotifications <;> simp [handleInitialized, hw, hpn]
  · cases hpn : b.pendingNotifications <;> simp [handleInitialized, hw, hpn]
  · have hb1 : (handleInitialized parse b).1.pendingNotifications = [] := by
      cases hpn : b.pendingNotifications <;> simp [handleInitialized, hw, hpn]
    rw [show (handleInitialized parse (handleInitialized parse b).1).2 =
        sendHydrationData parse (handleInitialized parse b).1 ++
          (if !((handleInitialized parse b).1.pendingNotifications).isEmpty &&
              (handleInitialized parse b).1.hasWindow
           then (handleInitialized parse b).1.pendingNotifications else []) from rfl]
    rw [hb1, sendHydrationData_after_init]
    simp

/-- Witness for C1: two queued notifications replay in FIFO order to the
registering app. -/
theorem queue_fifo_exactly_once_replay_witness :
    (registerToolNotificationSender
      (runSendToApp ⟨[], [], []⟩ "A"
        [⟨"m1", JsVal.jnum 1⟩, ⟨"m2", JsVal.jnum 2⟩]).1 "A").2 =
      [("A", Notif.mk "m1" (JsVal.jnum 1)), ("A", Notif.mk "m2" (JsVal.jnum 2))] :=
  (queue_fifo_exactly_once_replay ⟨[], [], []⟩ "A"
    [⟨"m1", JsVal.jnum 1⟩, ⟨"m2", JsVal.jnum 2⟩] (fun _ => none)
    ⟨IframeState.ready, true, [], false, JsVal.undef, JsVal.undef, JsVal.undef, false⟩
    (by simp) rfl rfl rfl).2.1

lemma takeUntil_split (ch : Char) (a b : List Char) (h : ch ∉ a) :
    takeUntil ch (a ++ ch :: b) = some (a, b) := by
  induction a with
  | nil => simp [takeUntil]
  | cons c t ih =>
    have hc : ¬(c = ch) := fun hcc => h (by simp [hcc])
    have ht : ch ∉ t := fun hm => h (List.mem_cons_of_mem _ hm)
    simp [takeUntil, hc, ih ht]

lemma findParam_split (pre nm suf : List Char) (hpre : '{' ∉ pre) (hnm : '}' ∉ nm) :
    findParam (pre ++ '{' :: (nm ++ '}' :: suf)) = some (pre, nm, suf) := by
  unfold findParam
  rw [takeUntil_split '{' pre (nm ++ '}' :: suf) hpre]
  simp only []
  rw [takeUntil_split '}' nm suf hnm]

lemma extractUriParamSingle_found (uri template pre nm suf : List Char)
    (h : findParam template = some (pre, nm, suf)) :
    extractUriParamSingle uri template = extractWithParts uri pre nm suf := by
  unfold extractUriParamSingle
  rw [h]

lemma extract_forward (pre nm suf mid : List Char)
    (hpre : '{' ∉ pre) (hnmc : '}' ∉ nm) (hnm : nm ≠ []) (hmid : mid ≠ []) :
    extractUriParamSingle (pre ++ mid ++ suf) (pre ++ '{' :: (nm ++ '}' :: suf))
      = some (nm, mid) := by
  rw [extractUriParamSingle_found _ _ pre nm suf (findParam_split pre nm suf hpre hnmc)]
  unfold extractWithParts
  rw [if_neg hnm]
  have hmlen : 0 < mid.length := List.length_pos.2 hmid
  have hlen : (pre ++ mid ++ suf).length = pre.length + mid.length + suf.length := by
    simp [List.length_append]
    omega
  have h1 : (pre ++ mid ++ suf).length > pre.length + suf.length := by omega
  have hmid2 : (pre ++ mid ++ suf).length - (pre.length + suf.length) = mid.length := by
    omega
  have h2 : (pre ++ mid ++ suf).take pre.length = pre := by
    rw [List.append_assoc, List.take_left]
  have h3 : (pre ++ mid ++ suf).drop
      (pre.length + ((pre ++ mid ++ suf).length - (pre.length + suf.length))) = suf := by
    rw [hmid2, show pre.length + mid.length = (pre ++ mid).length from
        (List.length_append _ _).symm, List.drop_left]
  have h4 : ((pre ++ mid ++ suf).drop pre.length).take
      ((pre ++ mid ++ suf).length - (pre.length + suf.length)) = mid := by
    rw [hmid2, List.append_assoc, List.drop_left, List.take_left]
  rw [if_pos ⟨h1, h2, h3⟩, h4]

lemma extract_converse (uri pre nm suf v nm' : List Char)
    (hpre : '{' ∉ pre) (hnmc : '}' ∉ nm)
    (h : extractUriParamSingle uri (pre ++ '{' :: (nm ++ '}' :: suf)) = some (nm', v)) :
    nm' = nm ∧ uri = pre ++ v ++ suf ∧ v ≠ [] := by
  rw [extractUriParamSingle_found _ _ pre nm suf (findParam_split pre nm suf hpre hnmc)] at h
  unfold extractWithParts at h
  by_cases hnm : nm = []
  · rw [if_pos hnm] at h
    exact absurd h (by simp)
  · rw [if_neg hnm] at h
    split_ifs at h with hcond
    · obtain ⟨hgt, htake, hdrop⟩ := hcond
      obtain ⟨hnm', hv⟩ := Prod.mk.injEq .. ▸ Option.some.injEq .. ▸ h
      refine ⟨hnm'.symm, ?_, ?_⟩
      · have hsplit : uri = uri.take pre.length ++ uri.drop pre.length :=
          (List.take_append_drop _ _).symm
        have hdsplit : uri.drop pre.length =
            (uri.drop pre.length).take (uri.length - (pre.length + suf.length)) ++
            (uri.drop pre.length).drop (uri.length - (pre.length + suf.length)) :=
          (List.take_append_drop _ _).symm
        have hdd : (uri.drop pre.length).drop (uri.length - (pre.length + suf.length)) =
            uri.drop (pre.length + (uri.length - (pre.length + suf.length))) := by
          rw [List.drop_drop]
        rw [← hv]
        calc uri = uri.take pre.length ++ uri.drop pre.length := hsplit
        _ = pre ++ uri.drop pre.length := by rw [htake]
        _ = pre ++ ((uri.drop pre.length).take (uri.length - (pre.length + suf.length)) ++
              (uri.drop pre.length).drop (uri.length - (pre.length + suf.length))) := by
              rw [← hdsplit]
        _ = pre ++ ((uri.drop pre.length).take (uri.length - (pre.length + suf.length)) ++ suf) := by
              rw [hdd, hdrop]
        _ = pre ++ (uri.drop pre.length).take (uri.length - (pre.length + suf.length)) ++ suf := by
              rw [List.append_assoc]
      · rw [← hv]
        intro hempty
        have hlen0 : ((uri.drop pre.length).take (uri.length - (pre.length + suf.length))).length = 0 := by
          rw [hempty]; rfl
        rw [List.length_take, List.length_drop] at hlen0
        omega

/-- C7: resource URI template matching is anchored with greedy
multi-segment capture: for any single-parameter template, a URI matches
exactly when it decomposes as `literal-head ++ value ++ literal-tail`
with non-empty `value` (slashes allowed in `value`), and the captured
parameter is that middle segment; in particular template
`res://file/\x7bpath\x7d` on URI `res://file/a/b/c.txt` extracts
`path = a/b/c.txt`. -/
theorem uri_template_multisegment_extraction
    (pre nm suf mid uri v nm' : List Char)
    (hpre : '{' ∉ pre) (hnmc : '}' ∉ nm) (hnm : nm ≠ []) (hmid : mid ≠ [])
    (hconv : extractUriParamSingle uri (pre ++ '{' :: (nm ++ '}' :: suf)) = some (nm', v)) :
    extractUriParamSingle "res://file/a/b/c.txt".data "res://file/{path}".data
      = some ("path".data, "a/b/c.txt".data) ∧
    matchesUriTemplateSingle "res://file/a/b/c.txt".data "res://file/{path}".data = true ∧
    extractUriParamSingle (pre ++ mid ++ suf) (pre ++ '{' :: (nm ++ '}' :: suf))
      = some (nm, mid) ∧
    nm' = nm ∧ uri = pre ++ v ++ suf ∧ v ≠ [] := by
  obtain ⟨ha, hb, hc⟩ := extract_converse uri pre nm suf v nm' hpre hnmc hconv
  exact ⟨by decide, by decide,
         extract_forward pre nm suf mid hpre hnmc hnm hmid, ha, hb, hc⟩

/-- Witness for C7 at the claim's concrete template and URI. -/
theorem uri_template_multisegment_extraction_witness :
    "res://file/a/b/c.txt".data = "res://file/".data ++ "a/b/c.txt".data ++ [] ∧
    "a/b/c.txt".data ≠ [] :=
  let h := uri_template_multisegment_extraction
    "res://file/".data "path".data [] "a/b/c.txt".data
    "res://file/a/b/c.txt".data "a/b/c.txt".data "path".data
    (by decide) (by decide) (by decide) (by decide) (by decide)
  ⟨h.2.2.2.2.1, h.2.2.2.2.2⟩

lemma alook_some_of_mem {κ β : Type} [DecidableEq κ] (l : List (κ × β)) (k : κ)
    (h : k ∈ l.map Prod.fst) : ∃ v, alook l k = some v := by
  cases halk : alook l k with
  | some v => exact ⟨v, rfl⟩
  | none => exact absurd ((alook_none_iff l k).1 halk) (not_not_intro h)

lemma mem_keys_eraseKey {κ β : Type} [DecidableEq κ] (l : List (κ × β)) (k j : κ)
    (hne : j ≠ k) (h : j ∈ l.map Prod.fst) : j ∈ (eraseKey l k).map Prod.fst := by
  by_contra hcon
  have h1 : alook (eraseKey l k) j = none := (alook_none_iff _ _).2 hcon
  rw [alook_eraseKey_ne l k j hne] at h1
  exact absurd ((alook_none_iff _ _).1 h1) (not_not_intro h)

lemma filter_fst_length (l : List (Nat × ReqEntry)) (i : Nat)
    (hnd : (l.map Prod.fst).Nodup) (hm : i ∈ l.map Prod.fst) :
    (l.filter (fun p => p.1 = i)).length = 1 := by
  induction l with
  | nil => simp at hm
  | cons hd tl ih =>
    obtain ⟨k, v⟩ := hd
    simp only [List.map_cons, List.nodup_cons] at hnd
    by_cases hk : k = i
    · subst hk
      have htl : tl.filter (fun p => p.1 = k) = [] := by
        apply List.filter_eq_nil_iff.2
        intro p hp hcon
        exact hnd.1 (by simp only [decide_eq_true_eq] at hcon
                        exact hcon ▸ List.mem_map_of_mem Prod.fst hp)
      simp [List.filter_cons, htl]
    · have hm' : i ∈ tl.map Prod.fst := by
        simp only [List.map_cons, List.mem_cons] at hm
        exact hm.resolve_left (fun he => hk he.symm)
      simp [List.filter_cons, hk, ih hnd.2 hm']

lemma reqStep_inv (s : ReqState) (e : ReqEvent) (h : ReqInv s) : ReqInv (reqStep s e).1 := by
  obtain ⟨hnd, hle⟩ := h
  cases e with
  | send t =>
    constructor
    · simp only [reqStep, List.map_append]
      rw [List.nodup_append]
      refine ⟨hnd, List.nodup_singleton _, ?_⟩
      intro x hx hx'
      simp only [List.map_cons, List.map_nil, List.mem_singleton] at hx'
      have := hle x hx
      omega
    · intro i hi
      simp only [reqStep, List.map_append, List.mem_append] at hi
      rcases hi with hi | hi
      · have := hle i hi
        simp only [reqStep]
        omega
      · simp only [List.map_cons, List.map_nil, List.mem_singleton] at hi
        simp only [reqStep]
        omega
  | response j b =>
    cases halk : alook s.pending j with
    | some v =>
      simp only [reqStep, halk]
      refine ⟨hnd.sublist (List.Sublist.map _ (eraseKey_sublist _ _)), ?_⟩
      intro i hi
      exact hle i (List.Sublist.subset (List.Sublist.map _ (eraseKey_sublist _ _)) hi)
    | none => simpa [reqStep, halk] using ⟨hnd, hle⟩
  | fire j =>
    cases halk : alook s.pending j with
    | some v =>
      simp only [reqStep, halk]
      refine ⟨hnd.sublist (List.Sublist.map _ (eraseKey_sublist _ _)), ?_⟩
      intro i hi
      exact hle i (List.Sublist.subset (List.Sublist.map _ (eraseKey_sublist _ _)) hi)
    | none => simpa [reqStep, halk] using ⟨hnd, hle⟩
  | unmount => simp [reqStep, ReqInv]

lemma reqRun_no_settle (es : List ReqEvent) (s : ReqState) (i : Nat)
    (hinv : ReqInv s) (hnot : i ∉ s.pending.map Prod.fst) (hle : i ≤ s.nextId) :
    settlesOf i (reqRun s es).2 = [] ∧
    i ∉ (reqRun s es).1.pending.map Prod.fst ∧
    i ≤ (reqRun s es).1.nextId := by
  induction es generalizing s with
  | nil => exact ⟨rfl, hnot, hle⟩
  | cons e rest ih =>
    have hstep : settlesOf i (reqStep s e).2 = [] ∧
        i ∉ (reqStep s e).1.pending.map Prod.fst ∧ i ≤ (reqStep s e).1.nextId := by
      cases e with
      | send t =>
        refine ⟨rfl, ?_, by simp only [reqStep]; omega⟩
        simp only [reqStep, List.map_append, List.mem_append, List.map_cons, List.map_nil,
          List.mem_singleton]
        rintro (h | h)
        · exact hnot h
        · omega
      | response j b =>
        cases halk : alook s.pending j with
        | some v =>
          have hj : j ∈ s.pending.map Prod.fst := by
            by_contra hcon
            rw [(alook_none_iff _ _).2 hcon] at halk
            cases halk
          have hji : j ≠ i := fun he => hnot (he ▸ hj)
          refine ⟨?_, ?_, by simpa [reqStep, halk] using hle⟩
          · cases b <;> simp [reqStep, halk, settlesOf, Settle.sid, hji]
          · simp only [reqStep, halk]
            intro hcon
            exact hnot (List.Sublist.subset
              (List.Sublist.map _ (eraseKey_sublist _ _)) hcon)
        | none => exact ⟨by simp [reqStep, halk, settlesOf], by simpa [reqStep, halk] using hnot,
                         by simpa [reqStep, halk] using hle⟩
      | fire j =>
        cases halk : alook s.pending j with
        | some v =>
          have hj : j ∈ s.pending.map Prod.fst := by
            by_contra hcon
            rw [(alook_none_iff _ _).2 hcon] at halk
            cases halk
          have hji : j ≠ i := fun he => hnot (he ▸ hj)
          refine ⟨?_, ?_, by simpa [reqStep, halk] using hle⟩
          · simp [reqStep, halk, settlesOf, Settle.sid, hji]
          · simp only [reqStep, halk]
            intro hcon
            exact hnot (List.Sublist.subset
              (List.Sublist.map _ (eraseKey_sublist _ _)) hcon)
        | none => exact ⟨by simp [reqStep, halk, settlesOf], by simpa [reqStep, halk] using hnot,
                         by simpa [reqStep, halk] using hle⟩
      | unmount =>
        refine ⟨?_, by simp [reqStep], by simpa [reqStep] using hle⟩
        simp only [reqStep, settlesOf]
        apply List.filter_eq_nil_iff.2
        intro st hst hcon
        obtain ⟨p, hp, rfl⟩ := List.mem_map.1 hst
        simp only [Settle.sid, decide_eq_true_eq] at hcon
        exact hnot (hcon ▸ List.mem_map_of_mem Prod.fst hp)
    obtain ⟨h1, h2, h3⟩ := hstep
    obtain ⟨h4, h5, h6⟩ := ih (reqStep s e).1 (reqStep_inv s e hinv) h2 h3
    refine ⟨?_, ?_, ?_⟩
    · show settlesOf i ((reqStep s e).2 ++ (reqRun (reqStep s e).1 rest).2) = []
      rw [settlesOf, List.filter_append]
      rw [show (reqStep s e).2.filter (fun st => st.sid = i) = settlesOf i (reqStep s e).2 from rfl,
          show (reqRun (reqStep s e).1 rest).2.filter (fun st => st.sid = i) =
            settlesOf i (reqRun (reqStep s e).1 rest).2 from rfl, h1, h4]
      rfl
    · exact h5
    · exact h6

lemma filter_sid_map (l : List (Nat × ReqEntry)) (i : Nat) :
    (l.map (fun p => Settle.rejectedUnmount p.1)).filter (fun st => st.sid = i)
      = (l.filter (fun p => p.1 = i)).map (fun p => Settle.rejectedUnmount p.1) := by
  induction l with
  | nil => rfl
  | cons hd tl ih =>
    have hsid : (Settle.rejectedUnmount hd.1).sid = hd.1 := rfl
    simp only [List.map_cons, List.filter_cons, hsid]
    by_cases h : hd.1 = i
    · simp [h, ih]
    · simp [h, ih]

lemma reqRun_exactly_once (es : List ReqEvent) (s : ReqState) (i : Nat)
    (hinv : ReqInv s) (hi : i ∈ s.pending.map Prod.fst) :
    (settlesOf i (reqRun s es).2).length ≤ 1 ∧
    ((∃ e ∈ es, relevantTo i e = true) →
      (settlesOf i (reqRun s es).2).length = 1 ∧
      i ∉ (reqRun s es).1.pending.map Prod.fst) := by
  induction es generalizing s with
  | nil =>
    refine ⟨by simp [reqRun, settlesOf], ?_⟩
    rintro ⟨e, he, _⟩
    simp at he
  | cons e rest ih =>
    have hsplit : settlesOf i (reqRun s (e :: rest)).2 =
        settlesOf i (reqStep s e).2 ++ settlesOf i (reqRun (reqStep s e).1 rest).2 := by
      show settlesOf i ((reqStep s e).2 ++ (reqRun (reqStep s e).1 rest).2) = _
      simp [settlesOf, List.filter_append]
    by_cases hrel : relevantTo i e = true
    · have hstep : (settlesOf i (reqStep s e).2).length = 1 ∧
          i ∉ (reqStep s e).1.pending.map Prod.fst ∧ i ≤ (reqStep s e).1.nextId := by
      -- placeholder
        cases e with
        | send t => simp [relevantTo] at hrel
        | response j b =>
          have hj : j = i := by simpa [relevantTo] using hrel
          subst hj
          obtain ⟨v, hv⟩ := alook_some_of_mem s.pending j hi
          refine ⟨?_, ?_, by simpa [reqStep, hv] using hinv.2 j hi⟩
          · cases b <;> simp [reqStep, hv, settlesOf, Settle.sid]
          · simp only [reqStep, hv]
            exact (alook_none_iff _ _).1 (alook_eraseKey_self s.pending j hinv.1)
        | fire j =>
          have hj : j = i := by simpa [relevantTo] using hrel
          subst hj
          obtain ⟨v, hv⟩ := alook_some_of_mem s.pending j hi
          refine ⟨?_, ?_, by simpa [reqStep, hv] using hinv.2 j hi⟩
          · simp [reqStep, hv, settlesOf, Settle.sid]
          · simp only [reqStep, hv]
            exact (alook_none_iff _ _).1 (alook_eraseKey_self s.pending j hinv.1)
        | unmount =>
          refine ⟨?_, by simp [reqStep], by simpa [reqStep] using hinv.2 i hi⟩
          simp only [reqStep, settlesOf]
          rw [filter_sid_map, List.length_map]
          exact filter_fst_length s.pending i hinv.1 hi
      obtain ⟨hlen1, hgone, hle'⟩ := hstep
      obtain ⟨hrest, hgone2, _⟩ :=
        reqRun_no_settle rest (reqStep s e).1 i (reqStep_inv s e hinv) hgone hle'
      refine ⟨?_, fun _ => ⟨?_, hgone2⟩⟩
      · rw [hsplit, hrest]
        simp [hlen1]
      · rw [hsplit, hrest]
        simp [hlen1]
    · have hstep : settlesOf i (reqStep s e).2 = [] ∧
          i ∈ (reqStep s e).1.pending.map Prod.fst := by
        cases e with
        | send t =>
          exact ⟨rfl, by simp only [reqStep, List.map_append, List.mem_append]; exact Or.inl hi⟩
        | response j b =>
          have hji : ¬(j = i) := by simpa [relevantTo] using hrel
          cases halk : alook s.pending j with
          | some v =>
            refine ⟨by cases b <;> simp [reqStep, halk, settlesOf, Settle.sid, hji], ?_⟩
            simp only [reqStep, halk]
            exact mem_keys_eraseKey s.pending j i (Ne.symm hji) hi
          | none =>
            exact ⟨by simp [reqStep, halk, settlesOf], by simpa [reqStep, halk] using hi⟩
        | fire j =>
          have hji : ¬(j = i) := by simpa [relevantTo] using hrel
          cases halk : alook s.pending j with
          | some v =>
            refine ⟨by simp [reqStep, halk, settlesOf, Settle.sid, hji], ?_⟩
            simp only [reqStep, halk]
            exact mem_keys_eraseKey s.pending j i (Ne.symm hji) hi
          | none =>
            exact ⟨by simp [reqStep, halk, settlesOf], by simpa [reqStep, halk] using hi⟩
        | unmount => simp [relevantTo] at hrel
      obtain ⟨h1, h2⟩ := hstep
      obtain ⟨hA, hB⟩ := ih (reqStep s e).1 (reqStep_inv s e hinv) h2
      refine ⟨?_, ?_⟩
      · rw [hsplit, h1]
        simpa using hA
      · rintro ⟨e', he', hrel'⟩
        rcases List.mem_cons.1 he' with rfl | he''
        · exact absurd hrel' hrel
        · have hres := hB ⟨e', he'', hrel'⟩
          refine ⟨?_, hres.2⟩
          rw [hsplit, h1]
          simpa using hres.1

/-- C5: every pending request id minted by `sendRequest` carries its
configured timeout and is fresh; along any event trace the id is settled
at most once, and exactly once — and removed from the pending map — as
soon as a matching response, its timer firing, or unmount teardown
occurs (the timer is armed until one of these happens, so an unanswered
request is rejected by its timer and never hangs); settling one id leaves
every other pending entry untouched. -/
theorem pending_request_exactly_once (s : ReqState) (t i : Nat) (es : List ReqEvent)
    (b : Bool) (hinv : ReqInv s) (hi : i ∈ s.pending.map Prod.fst) :
    (reqStep s (ReqEvent.send t)).1.pending = s.pending ++ [(s.nextId + 1, ⟨t⟩)] ∧
    (s.nextId + 1) ∉ s.pending.map Prod.fst ∧
    (settlesOf i (reqRun s es).2).length ≤ 1 ∧
    ((∃ e ∈ es, relevantTo i e = true) →
      (settlesOf i (reqRun s es).2).length = 1 ∧
      i ∉ (reqRun s es).1.pending.map Prod.fst) ∧
    (∀ j, j ≠ i →
      alook (reqStep s (ReqEvent.response i b)).1.pending j = alook s.pending j) ∧
    (∀ j, j ≠ i →
      alook (reqStep s (ReqEvent.fire i)).1.pending j = alook s.pending j) ∧
    (reqStep s (ReqEvent.fire i)).2 = [Settle.rejectedTimeout i] := by
  obtain ⟨v, hv⟩ := alook_some_of_mem s.pending i hi
  obtain ⟨honce, hrelev⟩ := reqRun_exactly_once es s i hinv hi
  refine ⟨by simp [reqStep], ?_, honce, hrelev, ?_, ?_, by simp [reqStep, hv]⟩
  · intro hcon
    have := hinv.2 _ hcon
    omega
  · intro j hj
    simp only [reqStep, hv]
    exact alook_eraseKey_ne s.pending i j hj
  · intro j hj
    simp only [reqStep, hv]
    exact alook_eraseKey_ne s.pending i j hj

/-- Witness for C5: a single pending request whose timer fires is
rejected with a timeout, exactly once. -/
theorem pending_request_exactly_once_witness :
    (settlesOf 1 (reqRun ⟨1, [(1, ⟨5000⟩)]⟩ [ReqEvent.fire 1]).2).length = 1 ∧
    (reqStep ⟨1, [(1, ⟨5000⟩)]⟩ (ReqEvent.fire 1)).2 = [Settle.rejectedTimeout 1] :=
  let h := pending_request_exactly_once ⟨1, [(1, ⟨5000⟩)]⟩ 300 1 [ReqEvent.fire 1] false
    (by decide) (by decide)
  ⟨(h.2.2.2.1 ⟨ReqEvent.fire 1, by decide, rfl⟩).1, h.2.2.2.2.2.2⟩
